import Mathlib

/-
Verification of the CMap core of pdfminer (`pdfminer/cmapdb.py`).

The `code2cid` table of a `CMap` is a nested Python dict keyed by byte
values; a value is either a further dict or an `int` character id.  We
embed it as an association list of byte/node pairs.  Fallible Python
operations (those that can raise) return `Option`; `none` stands for an
uncaught exception.
-/

set_option maxHeartbeats 1000000
set_option linter.unusedVariables false

/-- A value of the `code2cid` nested dict: an `int` leaf (a character id)
or a nested dict keyed by byte values. -/
inductive CodeNode where
  | leaf : Int → CodeNode
  | node : List (Nat × CodeNode) → CodeNode

/-- A Python dict keyed by bytes, embedded as an association list.
Insertion keeps the position of an existing key, as a Python dict does. -/
abbrev CodeDict := List (Nat × CodeNode)

/-- Python dict read `d[c]` (and the test `c in d`): the binding of `c`. -/
def dictGet : CodeDict → Nat → Option CodeNode
  | [], _ => none
  | (k, v) :: rest, c => if k = c then some v else dictGet rest c

/-- Python dict write `d[c] = v`: replace the binding in place, else append. -/
def dictSet : CodeDict → Nat → CodeNode → CodeDict
  | [], c, v => [(c, v)]
  | (k, w) :: rest, c, v => if k = c then (k, v) :: rest else (k, w) :: dictSet rest c v

/-- The walking loop of `CMap.decode`: `root` is `self.code2cid`, `d` the
current position.  A byte whose entry is an `int` emits it and resets to the
root; a byte with a dict entry descends; a byte with no entry is dropped and
the walk resets to the root for the next byte. -/
def decodeAux (root : CodeDict) : CodeDict → List Nat → List Int
  | _, [] => []
  | d, c :: cs =>
    match dictGet d c with
    | some (CodeNode.leaf cid) => cid :: decodeAux root root cs
    | some (CodeNode.node d2) => decodeAux root d2 cs
    | none => decodeAux root root cs

/-- `CMap.decode`: run the walk from the root. -/
def decode (root : CodeDict) (code : List Nat) : List Int :=
  decodeAux root root code

/-- `FileCMap.add_code2cid`: walk `code[:-1]` creating intermediate dicts,
then bind the last byte to `cid`.  `none` models the exceptions of the
Python code: `code[-1]` on an empty string (IndexError) and walking into an
existing `int` leaf (TypeError on indexing an int). -/
def add_code2cid : CodeDict → List Nat → Int → Option CodeDict
  | _, [], _ => none
  | d, [c], cid => some (dictSet d c (CodeNode.leaf cid))
  | d, c :: c2 :: rest, cid =>
    match dictGet d c with
    | some (CodeNode.node d2) =>
        (add_code2cid d2 (c2 :: rest) cid).map fun dd => dictSet d c (CodeNode.node dd)
    | some (CodeNode.leaf _) => none
    | none =>
        (add_code2cid [] (c2 :: rest) cid).map fun dd => dictSet d c (CodeNode.node dd)

/-- Membership semantics of the trie: a key is stored when walking it byte by
byte passes only dicts and ends exactly on an `int` leaf. -/
def lookup : CodeDict → List Nat → Option Int
  | _, [] => none
  | d, c :: cs =>
    match dictGet d c with
    | some (CodeNode.leaf cid) => if cs = [] then some cid else none
    | some (CodeNode.node d2) => lookup d2 cs
    | none => none

/-- One insertion step of a build history. -/
def buildStep (acc : Option CodeDict) (p : List Nat × Int) : Option CodeDict :=
  acc.bind fun d => add_code2cid d p.1 p.2

/-- A sequence of `add_code2cid` insertions applied to an initially empty
table. -/
def buildStore (inserts : List (List Nat × Int)) : Option CodeDict :=
  inserts.foldl buildStep (some [])

theorem dictGet_set_self (d : CodeDict) (c : Nat) (v : CodeNode) :
    dictGet (dictSet d c v) c = some v := by
  induction d with
  | nil => simp [dictSet, dictGet]
  | cons kv rest ih =>
    obtain ⟨k, w⟩ := kv
    by_cases h : k = c
    · subst h; simp [dictSet, dictGet]
    · simp [dictSet, dictGet, h, ih]

theorem dictGet_set_ne (d : CodeDict) (c c' : Nat) (v : CodeNode) (h : c' ≠ c) :
    dictGet (dictSet d c v) c' = dictGet d c' := by
  have h' : c ≠ c' := Ne.symm h
  induction d with
  | nil => simp [dictSet, dictGet, h']
  | cons kv rest ih =>
    obtain ⟨k, w⟩ := kv
    by_cases hk : k = c
    · subst hk
      simp [dictSet, dictGet, h']
    · simp only [dictSet, if_neg hk]
      simp [dictGet, ih]

/-- A successful insertion makes the inserted key look up to its id. -/
theorem lookup_add_self (k : List Nat) :
    ∀ (d d' : CodeDict) (cid : Int),
      add_code2cid d k cid = some d' → lookup d' k = some cid := by
  induction k with
  | nil => intro d d' cid h; simp [add_code2cid] at h
  | cons c cs ih =>
    intro d d' cid h
    cases cs with
    | nil =>
      simp only [add_code2cid, Option.some.injEq] at h
      subst h
      simp [lookup, dictGet_set_self]
    | cons c2 rest =>
      cases hg : dictGet d c with
      | none =>
        simp only [add_code2cid, hg] at h
        rcases Option.map_eq_some'.mp h with ⟨dd, hdd, rfl⟩
        simp only [lookup, dictGet_set_self]
        exact ih [] dd cid hdd
      | some v =>
        cases v with
        | leaf l => simp [add_code2cid, hg] at h
        | node d2 =>
          simp only [add_code2cid, hg] at h
          rcases Option.map_eq_some'.mp h with ⟨dd, hdd, rfl⟩
          simp only [lookup, dictGet_set_self]
          exact ih d2 dd cid hdd

/-- Frame lemma: a successful insertion of a key that is not a prefix of `k`
leaves the stored binding of `k` intact. -/
theorem lookup_add_frame (k2 : List Nat) :
    ∀ (k : List Nat) (d d' : CodeDict) (cid cid2 : Int),
      lookup d k = some cid →
      add_code2cid d k2 cid2 = some d' →
      ¬ k2 <+: k →
      lookup d' k = some cid := by
  induction k2 with
  | nil => intro k d d' cid cid2 hl ha hp; simp [add_code2cid] at ha
  | cons c2 cs2 ih =>
    intro k d d' cid cid2 hl ha hp
    cases k with
    | nil => simp [lookup] at hl
    | cons c cs =>
      cases cs2 with
      | nil =>
        simp only [add_code2cid, Option.some.injEq] at ha
        subst ha
        by_cases hc : c2 = c
        · subst hc
          exact absurd ⟨cs, rfl⟩ hp
        · simp only [lookup, dictGet_set_ne d c2 c _ (fun hh => hc hh.symm)]
          simpa [lookup] using hl
      | cons c3 rest2 =>
        cases hg : dictGet d c2 with
        | none =>
          simp only [add_code2cid, hg] at ha
          rcases Option.map_eq_some'.mp ha with ⟨dd, hdd, rfl⟩
          by_cases hc : c2 = c
          · subst hc
            simp [lookup, hg] at hl
          · simp only [lookup, dictGet_set_ne d c2 c _ (fun hh => hc hh.symm)]
            simpa [lookup] using hl
        | some v =>
          cases v with
          | leaf l => simp [add_code2cid, hg] at ha
          | node dsub =>
            simp only [add_code2cid, hg] at ha
            rcases Option.map_eq_some'.mp ha with ⟨dd, hdd, rfl⟩
            by_cases hc : c2 = c
            · subst hc
              have hl2 : lookup dsub cs = some cid := by simpa [lookup, hg] using hl
              have hp2 : ¬ (c3 :: rest2) <+: cs := by
                rintro ⟨t, ht⟩
                exact hp ⟨t, by simpa using ht⟩
              simp only [lookup, dictGet_set_self]
              exact ih cs dsub dd cid cid2 hl2 hdd hp2
            · simp only [lookup, dictGet_set_ne d c2 c _ (fun hh => hc hh.symm)]
              simpa [lookup] using hl

/-- A stored key decodes to its id and hands the walk back to the root for
the rest of the buffer. -/
theorem decodeAux_of_lookup (root : CodeDict) (k : List Nat) :
    ∀ (d : CodeDict) (cid : Int) (tail : List Nat),
      lookup d k = some cid →
      decodeAux root d (k ++ tail) = cid :: decodeAux root root tail := by
  induction k with
  | nil => intro d cid tail h; simp [lookup] at h
  | cons c cs ih =>
    intro d cid tail h
    cases hg : dictGet d c with
    | none => simp [lookup, hg] at h
    | some v =>
      cases v with
      | leaf l =>
        have hcs : cs = [] := by
          by_contra hne
          simp [lookup, hg, hne] at h
        subst hcs
        have hl : l = cid := by simpa [lookup, hg] using h
        subst hl
        simp [decodeAux, hg]
      | node d2 =>
        have h2 : lookup d2 cs = some cid := by simpa [lookup, hg] using h
        simpa [decodeAux, hg] using ih d2 cid tail h2

theorem foldl_buildStep_none (l : List (List Nat × Int)) :
    List.foldl buildStep none l = none := by
  induction l with
  | nil => rfl
  | cons x xs ih => simpa [buildStep] using ih

/-- Later successful insertions of keys that are not prefixes of `k`
preserve the binding of `k` across a whole build suffix. -/
theorem lookup_fold_frame (k : List Nat) (cid : Int) :
    ∀ (post : List (List Nat × Int)) (d store : CodeDict),
      lookup d k = some cid →
      (∀ p ∈ post, ¬ p.1 <+: k) →
      List.foldl buildStep (some d) post = some store →
      lookup store k = some cid := by
  intro post
  induction post with
  | nil =>
    intro d store hl _ hf
    simp only [List.foldl_nil, Option.some.injEq] at hf
    subst hf; exact hl
  | cons p ps ih =>
    intro d store hl hp hf
    simp only [List.foldl_cons] at hf
    cases ha : add_code2cid d p.1 p.2 with
    | none =>
      rw [show buildStep (some d) p = none by simpa [buildStep] using ha,
        foldl_buildStep_none] at hf
      exact absurd hf (by simp)
    | some d2 =>
      rw [show buildStep (some d) p = some d2 by simpa [buildStep] using ha] at hf
      have hl2 : lookup d2 k = some cid :=
        lookup_add_frame p.1 k d d2 cid p.2 hl ha (hp p (by simp))
      exact ih d2 store hl2 (fun q hq => hp q (by simp [hq])) hf

/-- Claim C1: for every (key, id) pair inserted via `add_code2cid` into a
table built from empty, where the key is a non-empty byte string, no other
inserted key is a proper prefix of it, and it is not later overwritten,
`decode` of a buffer consisting of exactly that key yields `[id]`. -/
theorem decode_of_insert (pre post : List (List Nat × Int)) (k : List Nat) (cid : Int)
    (store : CodeDict)
    (hk : k ≠ [])
    (hbuild : buildStore (pre ++ (k, cid) :: post) = some store)
    (hpre : ∀ p ∈ pre, p.1 <+: k → p.1 = k)
    (hpost : ∀ p ∈ post, ¬ p.1 <+: k) :
    decode store k = [cid] := by
  unfold buildStore at hbuild
  rw [List.foldl_append] at hbuild
  cases h1 : List.foldl buildStep (some []) pre with
  | none =>
    rw [h1, foldl_buildStep_none] at hbuild
    exact absurd hbuild (by simp)
  | some d0 =>
    rw [h1, List.foldl_cons] at hbuild
    cases h2 : add_code2cid d0 k cid with
    | none =>
      rw [show buildStep (some d0) (k, cid) = none by simpa [buildStep] using h2,
        foldl_buildStep_none] at hbuild
      exact absurd hbuild (by simp)
    | some d1 =>
      rw [show buildStep (some d0) (k, cid) = some d1 by simpa [buildStep] using h2] at hbuild
      have hl1 : lookup d1 k = some cid := lookup_add_self k d0 d1 cid h2
      have hls : lookup store k = some cid :=
        lookup_fold_frame k cid post d1 store hl1 hpost hbuild
      have := decodeAux_of_lookup store k store cid [] hls
      simpa [decode, decodeAux] using this

theorem decode_of_insert_witness :
    buildStore [([1], 5)] = some [(1, CodeNode.leaf 5)] ∧
    decode [(1, CodeNode.leaf 5)] [1] = [5] :=
  ⟨rfl,
   decode_of_insert [] [] [1] 5 [(1, CodeNode.leaf 5)] (by simp) rfl
     (by simp) (by simp)⟩

/-- Claim C2: for two distinct completely stored keys, decoding their
concatenation yields the concatenation of their individual decodings. -/
theorem decode_append_keys (store : CodeDict) (k1 k2 : List Nat) (id1 id2 : Int)
    (hne : k1 ≠ k2)
    (h1 : lookup store k1 = some id1)
    (h2 : lookup store k2 = some id2) :
    decode store (k1 ++ k2) = decode store k1 ++ decode store k2 := by
  have e1 : decode store (k1 ++ k2) = id1 :: decode store k2 :=
    decodeAux_of_lookup store k1 store id1 k2 h1
  have e2 : decode store k1 = [id1] := by
    have := decodeAux_of_lookup store k1 store id1 [] h1
    simpa [decode, decodeAux] using this
  rw [e1, e2]
  simp

theorem decode_append_keys_witness :
    lookup [(1, CodeNode.leaf 5), (2, CodeNode.leaf 7)] [1] = some 5 ∧
    decode [(1, CodeNode.leaf 5), (2, CodeNode.leaf 7)] ([1] ++ [2]) =
      decode [(1, CodeNode.leaf 5), (2, CodeNode.leaf 7)] [1] ++
      decode [(1, CodeNode.leaf 5), (2, CodeNode.leaf 7)] [2] :=
  ⟨rfl,
   decode_append_keys [(1, CodeNode.leaf 5), (2, CodeNode.leaf 7)] [1] [2] 5 7
     (by simp) rfl rfl⟩

theorem decodeAux_length (root : CodeDict) (code : List Nat) :
    ∀ d : CodeDict, (decodeAux root d code).length ≤ code.length := by
  induction code with
  | nil => intro d; simp [decodeAux]
  | cons c cs ih =>
    intro d
    cases hg : dictGet d c with
    | none =>
      simp only [decodeAux, hg, List.length_cons]
      exact le_trans (ih root) (Nat.le_succ _)
    | some v =>
      cases v with
      | leaf l =>
        simp only [decodeAux, hg, List.length_cons]
        exact Nat.succ_le_succ (ih root)
      | node d2 =>
        simp only [decodeAux, hg, List.length_cons]
        exact le_trans (ih d2) (Nat.le_succ _)

/-- Claim C3: `decode` is total (an unmatched byte is consumed, yields no
id, and restarts the walk at the root for the following byte), and the
number of emitted ids never exceeds the number of input bytes. -/
theorem decode_reset_and_length (root : CodeDict) (code : List Nat) :
    (∀ (d : CodeDict) (c : Nat) (cs : List Nat),
        dictGet d c = none → decodeAux root d (c :: cs) = decodeAux root root cs) ∧
    (decode root code).length ≤ code.length := by
  constructor
  · intro d c cs h
    simp [decodeAux, h]
  · exact decodeAux_length root code root

theorem decode_reset_and_length_witness :
    decodeAux [(0, CodeNode.leaf 7)] [(0, CodeNode.leaf 7)] [1, 0] =
      decodeAux [(0, CodeNode.leaf 7)] [(0, CodeNode.leaf 7)] [0] ∧
    (decode [(0, CodeNode.leaf 7)] [1, 0]).length ≤ 2 :=
  ⟨(decode_reset_and_length [(0, CodeNode.leaf 7)] [1, 0]).1
      [(0, CodeNode.leaf 7)] 1 [0] rfl,
   (decode_reset_and_length [(0, CodeNode.leaf 7)] [1, 0]).2⟩

/-- `CMap.use_cmap`: the recursive `copy(dst, src)` helper.  For each entry
of `src`, a dict value is replaced in `dst` by a fresh dict filled with a
deep copy of the source subtree (discarding whatever `dst` held there); an
`int` value is written directly. -/
def use_cmap : CodeDict → CodeDict → CodeDict
  | dst, [] => dst
  | dst, (k, CodeNode.leaf v) :: rest => use_cmap (dictSet dst k (CodeNode.leaf v)) rest
  | dst, (k, CodeNode.node sub) :: rest =>
      use_cmap (dictSet dst k (CodeNode.node (use_cmap [] sub))) rest

/-- The deep copy that `copy(dst, src)` makes of a single source value. -/
def copyNode : CodeNode → CodeNode
  | CodeNode.leaf v => CodeNode.leaf v
  | CodeNode.node d => CodeNode.node (use_cmap [] d)

theorem use_cmap_cons (dst : CodeDict) (k : Nat) (v : CodeNode) (rest : CodeDict) :
    use_cmap dst ((k, v) :: rest) = use_cmap (dictSet dst k (copyNode v)) rest := by
  cases v with
  | leaf w => rw [use_cmap, copyNode]
  | node sub => rw [use_cmap, copyNode]

/-- Well-formedness of an embedded Python dict: keys are unique at every
level (guaranteed for any actual Python dict). -/
def dictWF : CodeDict → Bool
  | [] => true
  | (k, CodeNode.leaf _) :: rest => !(rest.any fun kv => kv.1 == k) && dictWF rest
  | (k, CodeNode.node sub) :: rest =>
      !(rest.any fun kv => kv.1 == k) && dictWF sub && dictWF rest

theorem dictGet_none_of_not_any (d : CodeDict) (k : Nat)
    (h : (d.any fun kv => kv.1 == k) = false) : dictGet d k = none := by
  induction d with
  | nil => rfl
  | cons kv rest ih =>
    simp only [List.any_cons, Bool.or_eq_false_iff, beq_eq_false_iff_ne] at h
    obtain ⟨h1, h2⟩ := h
    obtain ⟨k', v⟩ := kv
    simp only [dictGet, if_neg (by simpa using h1)]
    exact ih (by simpa using h2)

theorem dictWF_tail (kv : Nat × CodeNode) (rest : CodeDict)
    (h : dictWF (kv :: rest) = true) : dictWF rest = true := by
  obtain ⟨k, v⟩ := kv
  cases v with
  | leaf w => simp only [dictWF, Bool.and_eq_true] at h; exact h.2
  | node sub => simp only [dictWF, Bool.and_eq_true] at h; exact h.2

theorem dictWF_head_not_any (k : Nat) (v : CodeNode) (rest : CodeDict)
    (h : dictWF ((k, v) :: rest) = true) :
    (rest.any fun kv => kv.1 == k) = false := by
  cases v with
  | leaf w =>
    simp only [dictWF, Bool.and_eq_true, Bool.not_eq_true'] at h
    exact h.1
  | node sub =>
    simp only [dictWF, Bool.and_eq_true, Bool.not_eq_true'] at h
    exact h.1.1

/-- In a well-formed dict, the subtree found by `dictGet` is well-formed. -/
theorem dictWF_get (d : CodeDict) (c : Nat) (sub : CodeDict)
    (hwf : dictWF d = true) (hg : dictGet d c = some (CodeNode.node sub)) :
    dictWF sub = true := by
  induction d with
  | nil => simp [dictGet] at hg
  | cons kv rest ih =>
    obtain ⟨k, v⟩ := kv
    by_cases hk : k = c
    · subst hk
      have hv : v = CodeNode.node sub := by simpa [dictGet] using hg
      subst hv
      simp only [dictWF, Bool.and_eq_true] at hwf
      exact hwf.1.2
    · simp only [dictGet, if_neg hk] at hg
      exact ih (dictWF_tail _ _ hwf) hg

/-- What `copy` leaves at each top-level key: source entries are deep-copied
over, keys absent from the source keep the destination's binding. -/
theorem dictGet_use_cmap (src : CodeDict) :
    ∀ (dst : CodeDict) (c : Nat), dictWF src = true →
      dictGet (use_cmap dst src) c =
        (match dictGet src c with
         | none => dictGet dst c
         | some v => some (copyNode v)) := by
  induction src with
  | nil => intro dst c hwf; simp [use_cmap, dictGet]
  | cons kv rest ih =>
    intro dst c hwf
    obtain ⟨k, v⟩ := kv
    rw [use_cmap_cons]
    rw [ih (dictSet dst k (copyNode v)) c (dictWF_tail _ _ hwf)]
    by_cases hk : k = c
    · subst hk
      have hnone : dictGet rest k = none :=
        dictGet_none_of_not_any rest k (dictWF_head_not_any k v rest hwf)
      rw [hnone]
      simp [dictGet, dictGet_set_self]
    · have : dictGet ((k, v) :: rest) c = dictGet rest c := by
        simp [dictGet, hk]
      rw [this]
      cases hr : dictGet rest c with
      | none => simp [dictGet_set_ne dst k c _ (Ne.symm hk), dictGet, hk]
      | some w => simp

/-- Every stored key of the source is stored (with the source's id) after
the merge. -/
theorem lookup_use_cmap_src (k : List Nat) :
    ∀ (dst src : CodeDict) (cid : Int), dictWF src = true →
      lookup src k = some cid → lookup (use_cmap dst src) k = some cid := by
  induction k with
  | nil => intro dst src cid hwf hl; simp [lookup] at hl
  | cons c cs ih =>
    intro dst src cid hwf hl
    cases hg : dictGet src c with
    | none => simp [lookup, hg] at hl
    | some v =>
      have hget := dictGet_use_cmap src dst c hwf
      rw [hg] at hget
      cases v with
      | leaf l =>
        have hcs : cs = [] := by
          by_contra hne
          simp [lookup, hg, hne] at hl
        subst hcs
        have : l = cid := by simpa [lookup, hg] using hl
        subst this
        simp [lookup, hget, copyNode]
      | node sub =>
        have hsub : lookup sub cs = some cid := by simpa [lookup, hg] using hl
        have hwfsub : dictWF sub = true := dictWF_get src c sub hwf hg
        simp only [lookup, hget, copyNode]
        exact ih [] sub cid hwfsub hsub

/-- A destination key whose first byte has no entry in the source root is
untouched by the merge. -/
theorem lookup_use_cmap_frame (dst src : CodeDict) (c : Nat) (cs : List Nat)
    (hwf : dictWF src = true) (hg : dictGet src c = none) :
    lookup (use_cmap dst src) (c :: cs) = lookup dst (c :: cs) := by
  have hget := dictGet_use_cmap src dst c hwf
  rw [hg] at hget
  simp only [lookup, hget]

/-- Claim C5 (amended): after `A.use_cmap(B)` every stored key of B is
stored in A with B's id (so B wins wherever both define a path), and every
stored key of A whose first byte has no entry at B's root keeps its
original id.  (A key of A that merely shares its first byte with some B
entry is not preserved: `copy` replaces that whole subtree of A.) -/
theorem use_cmap_spec (A B : CodeDict) (k : List Nat) (cid : Int)
    (hwf : dictWF B = true) :
    (lookup B k = some cid → lookup (use_cmap A B) k = some cid) ∧
    (∀ c cs, k = c :: cs → dictGet B c = none →
        lookup (use_cmap A B) k = lookup A k) := by
  constructor
  · exact fun h => lookup_use_cmap_src k A B cid hwf h
  · intro c cs hk hg
    subst hk
    exact lookup_use_cmap_frame A B c cs hwf hg

theorem use_cmap_spec_witness :
    lookup (use_cmap [(0, CodeNode.leaf 1), (3, CodeNode.leaf 9)] [(0, CodeNode.leaf 2)]) [0] =
      some 2 ∧
    lookup (use_cmap [(0, CodeNode.leaf 1), (3, CodeNode.leaf 9)] [(0, CodeNode.leaf 2)]) [3] =
      lookup [(0, CodeNode.leaf 1), (3, CodeNode.leaf 9)] [3] :=
  ⟨(use_cmap_spec [(0, CodeNode.leaf 1), (3, CodeNode.leaf 9)] [(0, CodeNode.leaf 2)]
      [0] 2 (by simp [dictWF])).1 (by simp [lookup, dictGet]),
   (use_cmap_spec [(0, CodeNode.leaf 1), (3, CodeNode.leaf 9)] [(0, CodeNode.leaf 2)]
      [3] 9 (by simp [dictWF])).2 3 [] rfl (by simp [dictGet])⟩

/-- Counterexample to claim C5 as stated: A stores the two-byte key
`[0, 1]`, B stores `[0, 2]`; the path `[0, 1]` is not defined in B, yet
after the merge A no longer stores it, because `copy` replaced A's whole
subtree under the shared first byte `0`. -/
theorem use_cmap_counterexample :
    lookup [(0, CodeNode.node [(1, CodeNode.leaf 5)])] [0, 1] = some 5 ∧
    lookup [(0, CodeNode.node [(2, CodeNode.leaf 7)])] [0, 1] = none ∧
    lookup (use_cmap [(0, CodeNode.node [(1, CodeNode.leaf 5)])]
        [(0, CodeNode.node [(2, CodeNode.leaf 7)])]) [0, 1] = none := by
  refine ⟨rfl, rfl, ?_⟩
  simp [use_cmap, dictSet, lookup, dictGet]

/-- An operand object on the CMap parser's stack (the dynamically typed
values of the PostScript mini-language): integer, byte string, name
literal (PSLiteral), nested array, or a keyword pushed back as an operand. -/
inductive PSObject where
  | num : Int → PSObject
  | str : List Nat → PSObject
  | name : String → PSObject
  | list : List PSObject → PSObject
  | kw : String → PSObject

/-- Modelled from the spec: the external list-chunking helper `choplist`
for groups of two; trailing operands that do not fill a group are dropped. -/
def choplist2 {α : Type} : List α → List (α × α)
  | a :: b :: rest => (a, b) :: choplist2 rest
  | _ => []

/-- Modelled from the spec: the external list-chunking helper `choplist`
for groups of three; trailing operands that do not fill a group are dropped. -/
def choplist3 {α : Type} : List α → List (α × α × α)
  | a :: b :: c :: rest => (a, b, c) :: choplist3 rest
  | _ => []

/-- Modelled from the spec: the external numeric helper `nunpack`, reading a
byte string as a big-endian unsigned integer (an empty string reads as 0). -/
def nunpack (bs : List Nat) : Nat :=
  bs.foldl (fun acc b => 256 * acc + b) 0

/-- Python `struct.pack('>L', x)`: the four big-endian bytes of `x` when
`0 ≤ x < 2^32`; larger values raise struct.error (`none`). -/
def packL (x : Nat) : Option (List Nat) :=
  if x < 4294967296 then
    some [x / 16777216 % 256, x / 65536 % 256, x / 256 % 256, x % 256]
  else none

/-- Python slice `s[-n:]`: the last `n` items when `n ≥ 1` (the whole list
when `n = 0`, matching Python, where `s[-0:]` is `s[0:]`). -/
def sliceLast {α : Type} (l : List α) (n : Nat) : List α :=
  if n = 0 then l else l.drop (l.length - n)

/-- One expansion step of the cidrange loop folded into the store: apply a
(possibly failing) pending insertion. -/
def insertStep (acc : Option CodeDict) (op : Option (List Nat × Int)) : Option CodeDict :=
  acc.bind fun d => op.bind fun p => add_code2cid d p.1 p.2

/-- The insertions the `endcidrange` loop performs for one validated
(start, end, cid) triple: for `i` in `xrange(e1-s1+1)`, the key is the
shared prefix plus the last `vlen` bytes of `pack('>L', s1+i)`, bound to
`cid+i`. -/
def cidrangeExpansion (s e : List Nat) (cid : Int) : List (Option (List Nat × Int)) :=
  let spfx := s.take (s.length - 4)
  let svar := sliceLast s 4
  let evar := sliceLast e 4
  let s1 := nunpack svar
  let e1 := nunpack evar
  let vlen := svar.length
  (List.range (((e1 : Int) - (s1 : Int) + 1).toNat)).map fun i =>
    (packL (s1 + i)).map fun bytes => (spfx ++ sliceLast bytes vlen, cid + (i : Int))

/-- Processing of one `choplist(3, objs)` group by the `endcidrange`
keyword: groups with wrong operand types or unequal code lengths are
skipped, groups whose leading bytes (`s[:-4]` vs `e[:-4]`) differ are
skipped, and valid groups run the range expansion into the store. -/
def cidrangeTriple (st : CodeDict) : PSObject × PSObject × PSObject → Option CodeDict
  | (PSObject.str s, PSObject.str e, PSObject.num cid) =>
    if s.length = e.length then
      if s.take (s.length - 4) = e.take (e.length - 4) then
        (cidrangeExpansion s e cid).foldl insertStep (some st)
      else some st
    else some st
  | _ => some st

/-- The `endcidrange` keyword: drain the operand stack (`objs`, in push
order) and process it in groups of three. -/
def doEndcidrange (st : CodeDict) (objs : List PSObject) : Option CodeDict :=
  (choplist3 objs).foldl (fun acc g => acc.bind fun d => cidrangeTriple d g) (some st)

/-- The `endcidchar` keyword: drain the stack in groups of two `(cid, code)`;
only groups where BOTH operands are byte strings are inserted, mapping the
second operand to `nunpack` of the first. -/
def doEndcidchar (st : CodeDict) (objs : List PSObject) : Option CodeDict :=
  (choplist2 objs).foldl
    (fun acc g =>
      acc.bind fun d =>
        match g with
        | (PSObject.str cid, PSObject.str code) =>
            add_code2cid d code ((nunpack cid : Nat) : Int)
        | _ => some d)
    (some st)

/-- The `cid2unicode` store of a UnicodeMap: a Python dict from character
id to codepoint, embedded as an association list. -/
abbrev UStore := List (Int × Int)

/-- Python dict write on the `cid2unicode` store. -/
def ustoreSet : UStore → Int → Int → UStore
  | [], k, v => [(k, v)]
  | (k', v') :: rest, k, v =>
      if k' = k then (k', v) :: rest else (k', v') :: ustoreSet rest k v

/-- `FileUnicodeMap.add_cid2unicode`.  The glyph-name collaborator
`name2unicode` is passed as `n2u` (modelled from the spec: resolve a glyph
name to a codepoint).  A byte-string value goes through Python
`struct.unpack('>H', code)`, which demands exactly two bytes and raises
struct.error otherwise; any value other than a literal, a byte string or
an integer raises TypeError.  `none` models those exceptions. -/
def add_cid2unicode (n2u : String → Int) (m : UStore) (cid : Int) : PSObject → Option UStore
  | PSObject.name s => some (ustoreSet m cid (n2u s))
  | PSObject.str [b0, b1] => some (ustoreSet m cid (256 * (b0 : Int) + (b1 : Int)))
  | PSObject.str _ => none
  | PSObject.num k => some (ustoreSet m cid k)
  | _ => none

/-- Processing of one `choplist(3, objs)` group by the `endbfrange`
keyword: on a list replacement, positional entries are taken (an index past
the end raises IndexError); on a byte-string template, the prefix plus
incremented 4-byte suffix expansion is used; any other replacement type
raises TypeError when sliced. -/
def bfrangeTriple (n2u : String → Int) (m : UStore) :
    PSObject × PSObject × PSObject → Option UStore
  | (PSObject.str s, PSObject.str e, code) =>
    if s.length = e.length then
      let s1 := nunpack s
      let e1 := nunpack e
      let cnt := (((e1 : Int) - (s1 : Int)) + 1).toNat
      match code with
      | PSObject.list l =>
          (List.range cnt).foldl
            (fun acc i => acc.bind fun st =>
              match l.get? i with
              | some ci => add_cid2unicode n2u st ((s1 : Int) + (i : Int)) ci
              | none => none)
            (some m)
      | PSObject.str cs =>
          let var := sliceLast cs 4
          let base := nunpack var
          let cpfx := cs.take (cs.length - 4)
          let vlen := var.length
          (List.range cnt).foldl
            (fun acc i => acc.bind fun st =>
              (packL (base + i)).bind fun bytes =>
                add_cid2unicode n2u st ((s1 : Int) + (i : Int))
                  (PSObject.str (cpfx ++ sliceLast bytes vlen)))
            (some m)
      | _ => none
    else some m
  | _ => some m

/-- The `endbfrange` keyword: drain the stack and process groups of three. -/
def doEndbfrange (n2u : String → Int) (m : UStore) (objs : List PSObject) : Option UStore :=
  (choplist3 objs).foldl (fun acc g => acc.bind fun st => bfrangeTriple n2u st g) (some m)

/-- The `endbfchar` keyword: drain the stack in groups of two; only groups
where both operands are byte strings reach `add_cid2unicode`. -/
def doEndbfchar (n2u : String → Int) (m : UStore) (objs : List PSObject) : Option UStore :=
  (choplist2 objs).foldl
    (fun acc g =>
      acc.bind fun st =>
        match g with
        | (PSObject.str cid, PSObject.str code) =>
            add_cid2unicode n2u st ((nunpack cid : Nat) : Int) (PSObject.str code)
        | _ => some st)
    (some m)

/-- `IdentityCMap.decode` unpacks with format `'>%dH' % (len(code)/2)`:
consecutive big-endian 16-bit integers. -/
def unpackH : List Nat → List Nat
  | b1 :: b2 :: rest => (256 * b1 + b2) :: unpackH rest
  | _ => []

/-- `IdentityCMap.decode`: `unpack('>%dH' % (len(code)/2), code)`.  Python
`struct.unpack` demands that the buffer length equal the format size
`2 * (len(code) / 2)` exactly, so an odd-length input raises struct.error
(`none`); no trie is consulted. -/
def identityDecode (code : List Nat) : Option (List Nat) :=
  if code.length = 2 * (code.length / 2) then some (unpackH code) else none

theorem dictSet_ne_nil (d : CodeDict) (c : Nat) (v : CodeNode) : dictSet d c v ≠ [] := by
  cases d with
  | nil => simp [dictSet]
  | cons kv rest =>
    obtain ⟨k, w⟩ := kv
    by_cases h : k = c <;> simp [dictSet, h]

/-- A successful `add_code2cid` always yields a non-empty root dict. -/
theorem add_ne_nil (d : CodeDict) (k : List Nat) (cid : Int) (d' : CodeDict)
    (h : add_code2cid d k cid = some d') : d' ≠ [] := by
  cases k with
  | nil => simp [add_code2cid] at h
  | cons c cs =>
    cases cs with
    | nil =>
      simp only [add_code2cid, Option.some.injEq] at h
      subst h
      exact dictSet_ne_nil d c _
    | cons c2 rest =>
      cases hg : dictGet d c with
      | none =>
        simp only [add_code2cid, hg] at h
        rcases Option.map_eq_some'.mp h with ⟨dd, _, rfl⟩
        exact dictSet_ne_nil d c _
      | some v =>
        cases v with
        | leaf l => simp [add_code2cid, hg] at h
        | node d2 =>
          simp only [add_code2cid, hg] at h
          rcases Option.map_eq_some'.mp h with ⟨dd, _, rfl⟩
          exact dictSet_ne_nil d c _

theorem foldl_insertStep_none (l : List (Option (List Nat × Int))) :
    List.foldl insertStep none l = none := by
  induction l with
  | nil => rfl
  | cons x xs ih => simpa [insertStep] using ih

theorem foldl_insertStep_preserve (l : List (Option (List Nat × Int))) :
    ∀ (d r : CodeDict), List.foldl insertStep (some d) l = some r → d ≠ [] → r ≠ [] := by
  induction l with
  | nil =>
    intro d r h hd
    simp only [List.foldl_nil, Option.some.injEq] at h
    subst h; exact hd
  | cons x xs ih =>
    intro d r h hd
    simp only [List.foldl_cons] at h
    cases x with
    | none =>
      rw [show insertStep (some d) none = none from rfl, foldl_insertStep_none] at h
      exact absurd h (by simp)
    | some p =>
      cases ha : add_code2cid d p.1 p.2 with
      | none =>
        rw [show insertStep (some d) (some p) = none by simpa [insertStep] using ha,
          foldl_insertStep_none] at h
        exact absurd h (by simp)
      | some d2 =>
        rw [show insertStep (some d) (some p) = some d2 by simpa [insertStep] using ha] at h
        exact ih d2 r h (add_ne_nil d p.1 p.2 d2 ha)

/-- Folding pending insertions over an empty store returns the empty store
only when there was nothing to insert. -/
theorem foldl_insertStep_from_nil (l : List (Option (List Nat × Int))) (r : CodeDict)
    (h : List.foldl insertStep (some []) l = some r) (hr : r = []) : l = [] := by
  cases l with
  | nil => rfl
  | cons x xs =>
    subst hr
    simp only [List.foldl_cons] at h
    cases x with
    | none =>
      rw [show insertStep (some []) none = none from rfl, foldl_insertStep_none] at h
      exact absurd h (by simp)
    | some p =>
      cases ha : add_code2cid [] p.1 p.2 with
      | none =>
        rw [show insertStep (some []) (some p) = none by simpa [insertStep] using ha,
          foldl_insertStep_none] at h
        exact absurd h (by simp)
      | some d2 =>
        rw [show insertStep (some []) (some p) = some d2 by simpa [insertStep] using ha] at h
        exact absurd rfl (foldl_insertStep_preserve xs d2 [] h (add_ne_nil [] p.1 p.2 d2 ha))

theorem doEndcidrange_single (st : CodeDict) (a b c : PSObject) :
    doEndcidrange st [a, b, c] = cidrangeTriple st (a, b, c) := by
  simp [doEndcidrange, choplist3]

theorem cidrangeTriple_skip_mismatch (st : CodeDict) (s e : List Nat) (cid : Int)
    (hpre : s.take (s.length - 4) ≠ e.take (e.length - 4)) :
    cidrangeTriple st (PSObject.str s, PSObject.str e, PSObject.num cid) = some st := by
  by_cases hlen : s.length = e.length
  · rw [hlen] at hpre
    simp [cidrangeTriple, hlen, hpre]
  · simp [cidrangeTriple, hlen]

/-- Claim C4 (amended): an `endcidrange` group whose leading bytes
(`s[:-4]` vs `e[:-4]`) are not identical is silently discarded and inserts
nothing.  For 4-byte codes both leading parts are empty and therefore
always identical, so the rule never discards such a group; in particular
start `01 00 00 00` / end `02 00 00 01` is NOT discarded (see the
counterexample, which shows it expands to 16777218 pending insertions). -/
theorem endcidrange_prefix_mismatch (d : CodeDict) (s e : List Nat) (cid : Int)
    (hlen : s.length = e.length)
    (hpre : s.take (s.length - 4) ≠ e.take (e.length - 4)) :
    doEndcidrange d [PSObject.str s, PSObject.str e, PSObject.num cid] = some d := by
  rw [doEndcidrange_single]
  exact cidrangeTriple_skip_mismatch d s e cid hpre

theorem endcidrange_prefix_mismatch_witness :
    doEndcidrange [] [PSObject.str [9, 1, 0, 0, 0], PSObject.str [8, 2, 0, 0, 1],
      PSObject.num 5] = some [] :=
  endcidrange_prefix_mismatch [] [9, 1, 0, 0, 0] [8, 2, 0, 0, 1] 5 rfl (by decide)

/-- Counterexample to claim C4 as stated: for start `01 00 00 00` and end
`02 00 00 01` the leading bytes are both empty (hence equal), the group is
NOT discarded, and the expansion holds 16777218 pending insertions, so the
store does not stay empty. -/
theorem endcidrange_example_inserts :
    (cidrangeExpansion [1, 0, 0, 0] [2, 0, 0, 1] 0).length = 16777218 ∧
    doEndcidrange [] [PSObject.str [1, 0, 0, 0], PSObject.str [2, 0, 0, 1],
      PSObject.num 0] ≠ some [] := by
  have hlen : (cidrangeExpansion [1, 0, 0, 0] [2, 0, 0, 1] 0).length = 16777218 := by
    unfold cidrangeExpansion
    simp only [List.length_map, List.length_range]
    decide
  refine ⟨hlen, ?_⟩
  intro hcontra
  rw [doEndcidrange_single] at hcontra
  simp only [cidrangeTriple] at hcontra
  norm_num at hcontra
  have := foldl_insertStep_from_nil _ _ hcontra rfl
  rw [this] at hlen
  simp at hlen

theorem cidrangeExpansion_empty (s e : List Nat) (cid : Int)
    (h : nunpack (sliceLast e 4) < nunpack (sliceLast s 4)) :
    cidrangeExpansion s e cid = [] := by
  unfold cidrangeExpansion
  have hz : (((nunpack (sliceLast e 4) : Int) - (nunpack (sliceLast s 4) : Int)) + 1).toNat
      = 0 := by omega
  simp [hz]

theorem doEndbfrange_single (n2u : String → Int) (m : UStore) (a b c : PSObject) :
    doEndbfrange n2u m [a, b, c] = bfrangeTriple n2u m (a, b, c) := by
  simp [doEndbfrange, choplist3]

/-- Claim C9: a range whose end value is strictly below its start value
expands to zero iterations: nothing is inserted, nothing wraps around, and
no error is raised — for `endcidrange` (suffix values) as well as for
`endbfrange` with either a byte-string template or a list replacement. -/
theorem range_reversed_empty (d : CodeDict) (m : UStore) (n2u : String → Int)
    (s e cs : List Nat) (cid : Int) (l : List PSObject)
    (hlen : s.length = e.length) :
    (nunpack (sliceLast e 4) < nunpack (sliceLast s 4) →
        doEndcidrange d [PSObject.str s, PSObject.str e, PSObject.num cid] = some d) ∧
    (nunpack e < nunpack s →
        doEndbfrange n2u m [PSObject.str s, PSObject.str e, PSObject.str cs] = some m) ∧
    (nunpack e < nunpack s →
        doEndbfrange n2u m [PSObject.str s, PSObject.str e, PSObject.list l] = some m) := by
  refine ⟨?_, ?_, ?_⟩
  · intro h
    rw [doEndcidrange_single]
    by_cases hp : s.take (s.length - 4) = e.take (e.length - 4)
    · simp [cidrangeTriple, hlen, hp, cidrangeExpansion_empty s e cid h]
    · exact cidrangeTriple_skip_mismatch d s e cid hp
  · intro h
    rw [doEndbfrange_single]
    have hz : (((nunpack e : Int) - (nunpack s : Int)) + 1).toNat = 0 := by omega
    simp [bfrangeTriple, hlen, hz]
  · intro h
    rw [doEndbfrange_single]
    have hz : (((nunpack e : Int) - (nunpack s : Int)) + 1).toNat = 0 := by omega
    simp [bfrangeTriple, hlen, hz]

theorem range_reversed_empty_witness :
    doEndcidrange [] [PSObject.str [2], PSObject.str [1], PSObject.num 0] = some [] ∧
    doEndbfrange (fun _ => 0) [] [PSObject.str [2], PSObject.str [1],
      PSObject.str [0, 0]] = some [] ∧
    doEndbfrange (fun _ => 0) [] [PSObject.str [2], PSObject.str [1],
      PSObject.list []] = some [] :=
  ⟨(range_reversed_empty [] [] (fun _ => 0) [2] [1] [0, 0] 0 [] rfl).1 (by decide),
   (range_reversed_empty [] [] (fun _ => 0) [2] [1] [0, 0] 0 [] rfl).2.1 (by decide),
   (range_reversed_empty [] [] (fun _ => 0) [2] [1] [0, 0] 0 [] rfl).2.2 (by decide)⟩

/-- Claim C7 (amended): `endcidchar` inserts a group only when BOTH
operands are byte strings, in which case the second operand (the code) is
bound to the big-endian value of the first; a byte-string code followed by
an integer id — the claim's expected shape — is skipped, as is an integer
followed by a byte string. -/
theorem endcidchar_spec (d : CodeDict) (a b : List Nat) (n : Int) :
    doEndcidchar d [PSObject.str a, PSObject.str b] =
      add_code2cid d b ((nunpack a : Nat) : Int) ∧
    doEndcidchar d [PSObject.str a, PSObject.num n] = some d ∧
    doEndcidchar d [PSObject.num n, PSObject.str a] = some d := by
  refine ⟨?_, rfl, rfl⟩
  simp [doEndcidchar, choplist2]

/-- Counterexample to claim C7 as stated: the group (byte-string code
`[32]`, integer id `1`) is dropped — the store stays empty and the code
`[32]` is not bound to id 1. -/
theorem endcidchar_counterexample :
    doEndcidchar [] [PSObject.str [32], PSObject.num 1] = some [] ∧
    (doEndcidchar [] [PSObject.str [32], PSObject.num 1]).map (fun d => lookup d [32]) ≠
      some (some 1) := by
  refine ⟨rfl, ?_⟩
  intro h
  simp [doEndcidchar, choplist2, lookup, dictGet] at h

/-- Claim C10: an integer cid with a byte-string value whose length is not
exactly 2 makes `add_cid2unicode` raise (struct.error from
`unpack('>H', code)`): the entry is not skipped and nothing is stored. -/
theorem add_cid2unicode_bad_str (n2u : String → Int) (m : UStore) (cid : Int)
    (bs : List Nat) (h : bs.length ≠ 2) :
    add_cid2unicode n2u m cid (PSObject.str bs) = none := by
  match bs with
  | [] => rfl
  | [b0] => rfl
  | [b0, b1] => exact absurd rfl h
  | b0 :: b1 :: b2 :: rest => rfl

theorem add_cid2unicode_bad_str_witness :
    add_cid2unicode (fun _ => 0) [] 7 (PSObject.str [0]) = none :=
  add_cid2unicode_bad_str (fun _ => 0) [] 7 [0] (by decide)

/-- The byte string consisting of the given big-endian 16-bit pairs. -/
def pairFlatten (pairs : List (Nat × Nat)) : List Nat :=
  pairs.foldr (fun p acc => p.1 :: p.2 :: acc) []

theorem pairFlatten_length (pairs : List (Nat × Nat)) :
    (pairFlatten pairs).length = 2 * pairs.length := by
  induction pairs with
  | nil => rfl
  | cons p ps ih => simp [pairFlatten] at ih ⊢; omega

theorem unpackH_pairFlatten (pairs : List (Nat × Nat)) :
    unpackH (pairFlatten pairs) = pairs.map fun p => 256 * p.1 + p.2 := by
  induction pairs with
  | nil => rfl
  | cons p ps ih => simp [pairFlatten, unpackH] at ih ⊢; exact ih

/-- Claim C6 (amended): `IdentityCMap.decode` of an even-length input
yields the big-endian 16-bit integer of each consecutive 2-byte chunk, with
no trie consulted; an odd-length input raises struct.error (it is NOT
truncated). -/
theorem identity_decode_spec (pairs : List (Nat × Nat)) (code : List Nat) :
    identityDecode (pairFlatten pairs) = some (pairs.map fun p => 256 * p.1 + p.2) ∧
    (code.length % 2 = 1 → identityDecode code = none) := by
  constructor
  · have hl := pairFlatten_length pairs
    have hcond : (pairFlatten pairs).length = 2 * ((pairFlatten pairs).length / 2) := by
      omega
    rw [identityDecode, if_pos hcond, unpackH_pairFlatten]
  · intro h
    have : ¬ code.length = 2 * (code.length / 2) := by omega
    simp [identityDecode, this]

theorem identity_decode_spec_witness :
    identityDecode [0, 65, 0, 66] = some [65, 66] ∧ identityDecode [0] = none :=
  ⟨(identity_decode_spec [(0, 65), (0, 66)] []).1,
   (identity_decode_spec [] [0]).2 (by decide)⟩

/-- Counterexample to claim C6 as stated: on the odd-length input
`[0, 65, 66]` the decode raises struct.error; the trailing odd byte is not
truncated (truncation would give `some [65]`). -/
theorem identity_decode_counterexample :
    identityDecode [0, 65, 66] = none ∧ identityDecode [0, 65, 66] ≠ some [65] := by
  exact ⟨rfl, by decide⟩

/-- The state of `CMapParser` relevant to `do_keyword`: the inside-cmap
flag, the operand stack (most-recent-first; push is cons, a drain reverses
into push order), and the stores and attributes being built. -/
structure CMapState where
  in_cmap : Bool
  stack : List PSObject
  code2cid : CodeDict
  cid2unicode : UStore
  attrs : List (String × PSObject)

/-- Python dict write on the attribute table of `set_attr`. -/
def attrsSet : List (String × PSObject) → String → PSObject → List (String × PSObject)
  | [], k, v => [(k, v)]
  | (k', v') :: rest, k, v =>
      if k' = k then (k', v) :: rest else (k', v') :: attrsSet rest k v

/-- `CMapParser.do_keyword`.  External collaborators are injected:
`resolve` is the CMap registry consulted by `usecmap` (modelled from the
spec: name → ready-built store, or not found), `n2u` the glyph-name lookup.
`begincmap` enters the in-cmap state and clears the stack; `endcmap` only
leaves the in-cmap state; outside the cmap every other keyword is ignored.
`def` pops two operands (an underfull stack is caught and ignored;
`literal_name` of a non-literal key is modelled from the spec as an
error), `usecmap` pops one name and merges the resolved store (a failed
resolution is caught and ignored).  `begin*` keywords clear the stack;
`end*` table keywords drain it in push order into the group processors;
any other keyword is pushed back as an operand. -/
def doKeyword (resolve : String → Option CodeDict) (n2u : String → Int)
    (st : CMapState) (kname : String) : Option CMapState :=
  if kname = "begincmap" then some { st with in_cmap := true, stack := [] }
  else if kname = "endcmap" then some { st with in_cmap := false }
  else if st.in_cmap = false then some st
  else if kname = "def" then
    match st.stack with
    | v :: PSObject.name k :: rest =>
        some { st with stack := rest, attrs := attrsSet st.attrs k v }
    | v :: _ :: rest => none
    | _ => some st
  else if kname = "usecmap" then
    match st.stack with
    | PSObject.name k :: rest =>
        (match resolve k with
         | some src => some { st with stack := rest, code2cid := use_cmap st.code2cid src }
         | none => some { st with stack := rest })
    | _ :: rest => none
    | [] => some st
  else if kname = "begincodespacerange" ∨ kname = "endcodespacerange"
      ∨ kname = "begincidrange" ∨ kname = "begincidchar"
      ∨ kname = "beginbfrange" ∨ kname = "beginbfchar"
      ∨ kname = "beginnotdefrange" ∨ kname = "endnotdefrange" then
    some { st with stack := [] }
  else if kname = "endcidrange" then
    (doEndcidrange st.code2cid st.stack.reverse).map fun d =>
      { st with stack := [], code2cid := d }
  else if kname = "endcidchar" then
    (doEndcidchar st.code2cid st.stack.reverse).map fun d =>
      { st with stack := [], code2cid := d }
  else if kname = "endbfrange" then
    (doEndbfrange n2u st.cid2unicode st.stack.reverse).map fun m =>
      { st with stack := [], cid2unicode := m }
  else if kname = "endbfchar" then
    (doEndbfchar n2u st.cid2unicode st.stack.reverse).map fun m =>
      { st with stack := [], cid2unicode := m }
  else some { st with stack := PSObject.kw kname :: st.stack }

/-- Claim C8 (amended): the keyword `endcmap` moves the builder from the
inside-cmap to the outside-cmap state and leaves everything else — in
particular the operand stack — unchanged.  (It is `begincmap` that clears
the stack.) -/
theorem endcmap_spec (resolve : String → Option CodeDict) (n2u : String → Int)
    (st : CMapState) :
    doKeyword resolve n2u st "endcmap" = some { st with in_cmap := false } := by
  rw [doKeyword, if_neg (by decide), if_pos rfl]

/-- Counterexample to claim C8 as stated: with one unconsumed operand on
the stack, `endcmap` leaves it there — the stack is not discarded. -/
theorem endcmap_counterexample :
    (doKeyword (fun _ => none) (fun _ => 0)
        ⟨true, [PSObject.num 1], [], [], []⟩ "endcmap").map CMapState.stack ≠
      some [] := by
  rw [doKeyword, if_neg (by decide), if_pos rfl]
  intro h
  simp at h
